import Mathlib

/-!
Shallow embedding of src/src/mini-mocha.js, a minimal mocha-style test
runner.  Test actions and hooks are modelled as `Act`: an identifier (used
to observe which computations were invoked, in order) together with an
optional raised error (`none` means the computation succeeds).  A raised
JavaScript error is modelled by `Err`, whose `message` field is `none`
when the thrown value has no message property.  The engine's global
mutable state (the failure counter, failure list and console output) is
threaded explicitly through `St`; `St.trace` records the ids of the acts
(hooks and test bodies) that were invoked, in invocation order.
-/

/-- A raised failure; `message` is `none` when the thrown value has no
`message` field (JavaScript `undefined`). -/
structure Err where
  message : Option String
deriving Repr, DecidableEq

/-- A deferred computation (test body or hook): an observation id and the
error it raises, if any. -/
structure Act where
  id : Nat
  outcome : Option Err
deriving Repr, DecidableEq

/-- One entry of the `failures` array pushed in the catch blocks of
`runSuite` and `runTests`. -/
structure FailureRecord where
  index : Nat
  name : String
  message : String
  indent : Nat
  details : String
deriving Repr, DecidableEq

/-- A node of the registered forest: either a test case (an object with a
`fn` property, built by `it` / `it.only`) or a suite (an object with a
`tests` array and `beforeEachHooks`, built by `describe` /
`describe.only`).  The `only` flag records `.only` registration. -/
inductive Node where
  | test (name : String) (fn : Act) (only : Bool)
  | suite (name : String) (hooks : List Act) (tests : List Node) (only : Bool)
deriving Repr

/-- JavaScript truthiness of the `fn` property: present exactly on test
cases. -/
def Node.isTest : Node → Bool
  | .test .. => true
  | .suite .. => false

/-- JavaScript truthiness of the `tests` property: present exactly on
suites (an empty array is still truthy). -/
def Node.isSuite : Node → Bool
  | .test .. => false
  | .suite .. => true

/-- The `only` flag of a node. -/
def Node.only : Node → Bool
  | .test _ _ o => o
  | .suite _ _ _ o => o

/-- The `name` of a node. -/
def Node.name : Node → String
  | .test n _ _ => n
  | .suite n _ _ _ => n

/-- The `tests` array of a node (`[]` for a test case, whose `tests`
property is absent). -/
def Node.tests : Node → List Node
  | .test .. => []
  | .suite _ _ ts _ => ts

/-- The `fn` of a node (a test case's action; dummy for suites, whose
`fn` is absent and never invoked). -/
def Node.fn : Node → Act
  | .test _ a _ => a
  | .suite .. => ⟨0, none⟩

/-- The expression `t.tests && t.tests.some((nested) => nested.only)`:
false for a test case (no `tests` property), otherwise whether some
direct child of the suite is marked `.only`. -/
def Node.nestedOnly : Node → Bool
  | .test .. => false
  | .suite _ _ ts _ => ts.any (·.only)

/-- The `hasOnly` expression computed at the top of both `runSuite` and
`runTests`: `list.some((t) => t.only || (t.tests && t.tests.some((nested)
=> nested.only)))`. -/
def hasOnlyIn (ts : List Node) : Bool :=
  ts.any fun t => t.only || t.nestedOnly

/-- The `isOnly` value as computed in `runSuite`: `hasOnly || only`. -/
def suiteIsOnly (ts : List Node) (only : Bool) : Bool :=
  hasOnlyIn ts || only

/-- The `isOnly` value as computed in `runTests` (the global exclusive flag). -/
def globalIsOnly (ts : List Node) : Bool :=
  hasOnlyIn ts

/-- The `hasRunnableTests` expression of `runSuite`: there is a runnable
direct test case, or some direct sub-suite passes the inline one-level
check `(sub.tests && sub.tests.some((n) => n.fn || n.tests)) && (!only ||
sub.tests.some((n) => n.only))`. -/
def hasRunnableTests (ts : List Node) (only isOnly : Bool) : Bool :=
  !(ts.filter fun t => t.isTest && (!isOnly || t.only)).isEmpty ||
    (ts.filter fun t => !t.isTest).any fun sub =>
      (sub.tests.any fun n => n.isTest || n.isSuite) &&
        (!only || sub.tests.any (·.only))

/-- The engine's global mutable state: `failureIndex`, the `failures`
array, the console output (one entry per `console.log` call, embedded
newlines kept), and the invocation trace of acts. -/
structure St where
  failureIndex : Nat
  failures : List FailureRecord
  out : List String
  trace : List Nat
deriving Repr, DecidableEq

/-- The initial global state (`failureIndex = 1`, everything empty). -/
def st0 : St := ⟨1, [], [], []⟩

/-- One `console.log` call. -/
def emit (st : St) (s : String) : St :=
  { st with out := st.out ++ [s] }

/-- Record that the act with this id was invoked. -/
def pushTrace (st : St) (i : Nat) : St :=
  { st with trace := st.trace ++ [i] }

/-- Two spaces repeated `n` times, JavaScript `'  '.repeat(n)`. -/
def indentStr : Nat → String
  | 0 => ""
  | n + 1 => indentStr n ++ "  "

/-- JavaScript `m || d` for an optional string `m`: the default is used
when the field is absent or the empty string (both falsy). -/
def jsOr (m : Option String) (d : String) : String :=
  match m with
  | none => d
  | some s => if s = "" then d else s

/-- The object literal pushed onto `failures` (identical in `runSuite`
and `runTests`, up to the `indent` argument). -/
def mkFailure (idx : Nat) (nm : String) (e : Err) (ind : Nat) : FailureRecord :=
  ⟨idx, nm, jsOr e.message "undefined", ind,
    "AssertionError [ERR_ASSERTION]: " ++ jsOr e.message "No message"⟩

/-- The `for (const hook of suite.beforeEachHooks) await hook()` loop:
runs hooks in order, stopping at (and returning) the first raised error. -/
def runActs : List Act → St → St × Option Err
  | [], st => (st, none)
  | a :: rest, st =>
    let st1 := pushTrace st a.id
    match a.outcome with
    | some e => (st1, some e)
    | none => runActs rest st1

/-- The catch block of `runSuite`'s test loop: log the indexed failure
line, push the failure record, bump `failureIndex`.  `ind` is the
`indent + 1` of the failing test's line. -/
def recordFailure (st : St) (nm : String) (e : Err) (ind : Nat) : St :=
  let st1 := emit st (indentStr ind ++ toString st.failureIndex ++ ") " ++ nm)
  let st2 := { st1 with failures := st1.failures ++ [mkFailure st1.failureIndex nm e ind] }
  { st2 with failureIndex := st2.failureIndex + 1 }

/-- The `for (const test of testCases)` loop of `runSuite`: for each test
run the suite's hooks then the test body inside one try/catch, counting
one pass or one failure per test. -/
def runCases (hooks : List Act) (indent : Nat) : List Node → St → St × Nat × Nat
  | [], st => (st, 0, 0)
  | t :: rest, st =>
    let r := runActs hooks st
    let step :=
      match r.2 with
      | some e => (recordFailure r.1 t.name e (indent + 1), 0, 1)
      | none =>
        let st2 := pushTrace r.1 t.fn.id
        match t.fn.outcome with
        | none => (emit st2 (indentStr (indent + 1) ++ "✓ " ++ t.name), 1, 0)
        | some e => (recordFailure st2 t.name e (indent + 1), 0, 1)
    let r2 := runCases hooks indent rest step.1
    (r2.1, step.2.1 + r2.2.1, step.2.2 + r2.2.2)

mutual

/-- The body of `runSuite(suite, indent, only)`: compute `isOnly`, filter the
runnable test cases and the sub-suites, suppress the suite entirely when
`hasRunnableTests` is false, otherwise print the suite name, run the test
cases, then the sub-suites, summing the results. -/
def runNode : Node → Nat → Bool → St → St × Nat × Nat
  | .test _ _ _, _, _, st => (st, 0, 0)
  | .suite nm hooks ch _, indent, only, st =>
    let isOnly := suiteIsOnly ch only
    let testCases := ch.filter fun t => t.isTest && (!isOnly || t.only)
    if !(hasRunnableTests ch only isOnly) then (st, 0, 0)
    else
      let st1 := emit st (indentStr indent ++ nm)
      let r1 := runCases hooks indent testCases st1
      let r2 := runChildren ch (indent + 1) isOnly r1.1
      (r2.1, r1.2.1 + r2.2.1, r1.2.2 + r2.2.2)

/-- The `for (const subSuite of subSuites)` loop: visit the non-test
children in order, recursing with `runSuite(subSuite, indent + 1,
isOnly)` and summing the results (test-case elements were filtered out
by `subSuites = suite.tests.filter((t) => !t.fn)`). -/
def runChildren : List Node → Nat → Bool → St → St × Nat × Nat
  | [], _, _, st => (st, 0, 0)
  | t :: rest, indent, only, st =>
    if t.isTest then runChildren rest indent only st
    else
      let r1 := runNode t indent only st
      let r2 := runChildren rest indent only r1.1
      (r2.1, r1.2.1 + r2.2.1, r1.2.2 + r2.2.2)

end

/-- The `for (const test of topLevelTests)` loop of `runTests`: skip
non-`.only` tests when the global flag is set, otherwise invoke the test
body, print `✓ name` on success or the indexed failure line (fixed
two-space prefix, record indent 0) on failure. -/
def runTopCases (isOnly : Bool) : List Node → St → St × Nat × Nat
  | [], st => (st, 0, 0)
  | t :: rest, st =>
    if isOnly && !t.only then runTopCases isOnly rest st
    else
      let st1 := pushTrace st t.fn.id
      match t.fn.outcome with
      | none =>
        let st2 := emit st1 ("✓ " ++ t.name)
        let r := runTopCases isOnly rest st2
        (r.1, r.2.1 + 1, r.2.2)
      | some e =>
        let st2 := emit st1 ("  " ++ toString st1.failureIndex ++ ") " ++ t.name)
        let st3 := { st2 with failures := st2.failures ++ [mkFailure st2.failureIndex t.name e 0] }
        let st4 := { st3 with failureIndex := st3.failureIndex + 1 }
        let r := runTopCases isOnly rest st4
        (r.1, r.2.1, r.2.2 + 1)

/-- The final failure detail loop of `runTests`: one blank-prefixed header
line and one indented detail line per recorded failure, in order. -/
def printFailures : List FailureRecord → St → St
  | [], st => st
  | f :: rest, st =>
    let st1 := emit st ("\n  " ++ toString f.index ++ ") " ++ f.name ++ ":\n")
    let st2 := emit st1 ("      " ++ f.details)
    printFailures rest st2

/-- The body of `runTests()`: compute the global `isOnly` flag, run the top-level test
cases, then the top-level suites (each via `runSuite(suite, 1, isOnly)`),
then print the summary and, when failures occurred, the failing count and
the detail blocks. -/
def runTests (tests : List Node) : St × Nat × Nat :=
  let isOnly := globalIsOnly tests
  let r1 := runTopCases isOnly (tests.filter (·.isTest)) st0
  let r2 := runChildren tests 1 isOnly r1.1
  let totalPassed := r1.2.1 + r2.2.1
  let totalFailed := r1.2.2 + r2.2.2
  let st := emit r2.1 ("\n  " ++ toString totalPassed ++ " passing")
  let st2 :=
    if totalFailed > 0 then
      let stB := emit st ("  " ++ toString totalFailed ++ " failing")
      printFailures stB.failures stB
    else st
  (st2, totalPassed, totalFailed)

/-- Trace of the hook loop: ids of the hooks invoked before (and
including) the first failing one. -/
def runActsTrace : List Act → List Nat
  | [] => []
  | a :: rest =>
    match a.outcome with
    | some _ => [a.id]
    | none => a.id :: runActsTrace rest

/-- The first error raised by a list of hooks, if any. -/
def hooksErr : List Act → Option Err
  | [] => none
  | a :: rest =>
    match a.outcome with
    | some e => some e
    | none => hooksErr rest

/-- Trace of executing one guarded test case: the hooks run first, and
the body runs only when no hook failed. -/
def caseTrace (hooks : List Act) (a : Act) : List Nat :=
  match hooksErr hooks with
  | some _ => runActsTrace hooks
  | none => runActsTrace hooks ++ [a.id]

mutual

/-- Pure invocation trace of `runSuite` on a node. -/
def nodeTrace : Node → Bool → List Nat
  | .test .., _ => []
  | .suite _ hooks ch _, only =>
    let isOnly := suiteIsOnly ch only
    if !(hasRunnableTests ch only isOnly) then []
    else
      (ch.filter fun t => t.isTest && (!isOnly || t.only)).flatMap
          (fun t => caseTrace hooks t.fn)
        ++ childrenTrace ch isOnly

/-- Pure invocation trace of the sub-suite loop over a children list. -/
def childrenTrace : List Node → Bool → List Nat
  | [], _ => []
  | t :: rest, only =>
    (if t.isTest then [] else nodeTrace t only) ++ childrenTrace rest only

end

mutual

/-- All act ids occurring in a node: its hooks (for suites) and the ids
of its own and its descendants' test bodies and hooks. -/
def nodeIds : Node → List Nat
  | .test _ a _ => [a.id]
  | .suite _ hooks ch _ => hooks.map (·.id) ++ childIds ch

/-- All act ids occurring in a list of nodes. -/
def childIds : List Node → List Nat
  | [] => []
  | t :: rest => nodeIds t ++ childIds rest

end

mutual

/-- The number of runnable test cases of a node, as computed by the
code's own filtering logic in `runSuite` (the `testCases` filter together
with the `hasRunnableTests` suppression). -/
def runnableNodeCount : Node → Bool → Nat
  | .test .., _ => 0
  | .suite _ _ ch _, only =>
    let isOnly := suiteIsOnly ch only
    if !(hasRunnableTests ch only isOnly) then 0
    else
      (ch.filter fun t => t.isTest && (!isOnly || t.only)).length
        + runnableChildrenCount ch isOnly

/-- Runnable test cases contributed by the sub-suite elements of a
children list. -/
def runnableChildrenCount : List Node → Bool → Nat
  | [], _ => 0
  | t :: rest, only =>
    (if t.isTest then 0 else runnableNodeCount t only)
      + runnableChildrenCount rest only

end

/-- The number of top-level test cases that the `runTests` loop does not
skip. -/
def topRunnableCount (isOnly : Bool) : List Node → Nat
  | [] => 0
  | t :: rest =>
    (if isOnly && !t.only then 0 else 1) + topRunnableCount isOnly rest

/-- Total number of runnable test cases of a registered forest, as
computed by the code's filtering logic. -/
def runnableTotal (tests : List Node) : Nat :=
  let isOnly := globalIsOnly tests
  topRunnableCount isOnly (tests.filter (·.isTest))
    + runnableChildrenCount tests isOnly

mutual

/-- Whether some node of the forest, at any nesting depth, carries the
exclusive flag.  This formalizes the claims' phrase "any node at any
depth carries exclusive = true" (the code itself has no such full-depth
check). -/
def nodeAnyOnly : Node → Bool
  | .test _ _ o => o
  | .suite _ _ ch o => o || listAnyOnly ch

/-- List version of `nodeAnyOnly`. -/
def listAnyOnly : List Node → Bool
  | [] => false
  | t :: rest => nodeAnyOnly t || listAnyOnly rest

end

/-- Structural induction over the nested `Node` type: to prove a property
of every node it suffices to prove it for test cases and for suites given
it for every direct child. -/
def nodeInd (P : Node → Prop)
    (htest : ∀ n a o, P (.test n a o))
    (hsuite : ∀ n h ch o, (∀ t ∈ ch, P t) → P (.suite n h ch o)) :
    ∀ t, P t
  | .test n a o => htest n a o
  | .suite n h ch o => hsuite n h ch o fun t _ => nodeInd P htest hsuite t

/-- The failure observed for one guarded test case, read off the single
try/catch of `runSuite`'s test loop: the first raised hook error if any,
otherwise the test body's own outcome. -/
def caseFails (hooks : List Act) (t : Node) : Option Err :=
  match hooksErr hooks with
  | some e => some e
  | none => t.fn.outcome

/-- Pure description of the console lines emitted by the test-case loop
of `runSuite` for a batch of cases, given the `failureIndex` counter on
entry: a `✓ name` line per passing case, an indexed `k) name` line per
failing case (the counter advancing only on failures).  Mentions only the
cases of the batch: cases not in the batch are reported nowhere. -/
def batchOut (hooks : List Act) (indent : Nat) : List Node → Nat → List String
  | [], _ => []
  | t :: rest, k =>
    match caseFails hooks t with
    | none => (indentStr (indent + 1) ++ "✓ " ++ t.name) :: batchOut hooks indent rest k
    | some _ =>
      (indentStr (indent + 1) ++ toString k ++ ") " ++ t.name)
        :: batchOut hooks indent rest (k + 1)

/-- Pure description of the failure records pushed by the test-case loop
of `runSuite` for a batch of cases, given the `failureIndex` counter on
entry: one record per failing case of the batch, none for passing cases,
and none for cases outside the batch. -/
def batchRecs (hooks : List Act) (indent : Nat) : List Node → Nat → List FailureRecord
  | [], _ => []
  | t :: rest, k =>
    match caseFails hooks t with
    | none => batchRecs hooks indent rest k
    | some e => mkFailure k t.name e (indent + 1) :: batchRecs hooks indent rest (k + 1)

@[simp]
theorem emit_trace (st : St) (s : String) : (emit st s).trace = st.trace := rfl

@[simp]
theorem pushTrace_trace (st : St) (i : Nat) :
    (pushTrace st i).trace = st.trace ++ [i] := rfl

@[simp]
theorem recordFailure_trace (st : St) (nm : String) (e : Err) (ind : Nat) :
    (recordFailure st nm e ind).trace = st.trace := rfl

theorem runActs_eq (as : List Act) (st : St) :
    runActs as st = ({ st with trace := st.trace ++ runActsTrace as }, hooksErr as) := by
  induction as generalizing st with
  | nil => simp [runActs, runActsTrace, hooksErr]
  | cons a rest ih =>
    cases h : a.outcome with
    | some e => simp [runActs, runActsTrace, hooksErr, h, pushTrace]
    | none => simp [runActs, runActsTrace, hooksErr, h, pushTrace, ih]

theorem runCases_trace (hooks : List Act) (indent : Nat) (cs : List Node) (st : St) :
    ((runCases hooks indent cs st).1).trace
      = st.trace ++ cs.flatMap fun t => caseTrace hooks t.fn := by
  induction cs generalizing st with
  | nil => simp [runCases]
  | cons t rest ih =>
    cases h : hooksErr hooks with
    | some e => simp [runCases, runActs_eq, caseTrace, h, ih]
    | none =>
      cases h2 : t.fn.outcome <;>
        simp [runCases, runActs_eq, caseTrace, h, h2, ih, pushTrace]

theorem runCases_counts (hooks : List Act) (indent : Nat) (cs : List Node) (st : St) :
    (runCases hooks indent cs st).2.1 + (runCases hooks indent cs st).2.2 = cs.length := by
  induction cs generalizing st with
  | nil => simp [runCases]
  | cons t rest ih =>
    cases h : (runActs hooks st).2 with
    | some e =>
      have := ih (recordFailure (runActs hooks st).1 t.name e (indent + 1))
      simp [runCases, h]
      omega
    | none =>
      cases h2 : t.fn.outcome with
      | none =>
        have := ih (emit (pushTrace (runActs hooks st).1 t.fn.id)
          (indentStr (indent + 1) ++ "✓ " ++ t.name))
        simp [runCases, h, h2]
        omega
      | some e =>
        have := ih (recordFailure (pushTrace (runActs hooks st).1 t.fn.id)
          t.name e (indent + 1))
        simp [runCases, h, h2]
        omega

theorem runTopCases_trace (isOnly : Bool) (cs : List Node) (st : St) :
    ((runTopCases isOnly cs st).1).trace
      = st.trace ++ cs.flatMap fun t => if isOnly && !t.only then [] else [t.fn.id] := by
  induction cs generalizing st with
  | nil => simp [runTopCases]
  | cons t rest ih =>
    cases isOnly <;> cases hto : t.only <;> cases h2 : t.fn.outcome <;>
      simp [runTopCases, hto, h2, ih, pushTrace, emit]

theorem sum_shift_pass (a b c : Nat) (h : a + b = c) : a + 1 + b = 1 + c := by
  omega

theorem sum_shift_fail (a b c : Nat) (h : a + b = c) : a + (b + 1) = 1 + c := by
  omega

theorem runTopCases_counts (isOnly : Bool) (cs : List Node) (st : St) :
    (runTopCases isOnly cs st).2.1 + (runTopCases isOnly cs st).2.2
      = topRunnableCount isOnly cs := by
  induction cs generalizing st with
  | nil => simp [runTopCases, topRunnableCount]
  | cons t rest ih =>
    cases isOnly <;> cases hto : t.only <;> cases h2 : t.fn.outcome <;>
      simp only [runTopCases, topRunnableCount, hto, h2, Bool.not_false, Bool.not_true,
        Bool.and_false, Bool.and_true, Bool.false_and, Bool.true_and, if_true, if_false,
        Bool.false_eq_true, ite_false, ite_true] <;>
      first
        | exact ih st
        | (simp [ih]; done)
        | exact sum_shift_pass _ _ _ (ih _)
        | exact sum_shift_fail _ _ _ (ih _)

theorem printFailures_trace (fs : List FailureRecord) (st : St) :
    (printFailures fs st).trace = st.trace := by
  induction fs generalizing st with
  | nil => simp [printFailures]
  | cons f rest ih => simp [printFailures, ih]

theorem childrenTrace_filter (ts : List Node) (only : Bool) :
    childrenTrace ts only
      = (ts.filter fun t => !t.isTest).flatMap fun t => nodeTrace t only := by
  induction ts with
  | nil => simp [childrenTrace]
  | cons t rest ih =>
    cases hc : t.isTest <;> simp [childrenTrace, hc, ih, List.filter_cons]

theorem runChildren_trace_of (ts : List Node)
    (ih : ∀ t ∈ ts, ∀ indent only st,
      ((runNode t indent only st).1).trace = st.trace ++ nodeTrace t only) :
    ∀ indent only st,
      ((runChildren ts indent only st).1).trace = st.trace ++ childrenTrace ts only := by
  induction ts with
  | nil => intro indent only st; simp [runChildren, childrenTrace]
  | cons t rest ihl =>
    intro indent only st
    have iht := ih t (by simp)
    have ihrest := ihl fun x hx => ih x (by simp [hx])
    cases hc : t.isTest with
    | true => simp [runChildren, childrenTrace, hc, ihrest]
    | false => simp [runChildren, childrenTrace, hc, ihrest, iht]

theorem runNode_trace : ∀ (t : Node) (indent : Nat) (only : Bool) (st : St),
    ((runNode t indent only st).1).trace = st.trace ++ nodeTrace t only := by
  refine nodeInd _ ?_ ?_
  · intro n a o indent only st
    simp [runNode, nodeTrace]
  · intro n h ch o ih indent only st
    have hQ := runChildren_trace_of ch ih
    cases hR : hasRunnableTests ch only (suiteIsOnly ch only) with
    | false => simp [runNode, nodeTrace, hR]
    | true => simp [runNode, nodeTrace, hR, hQ, runCases_trace]

theorem runChildren_trace (ts : List Node) (indent : Nat) (only : Bool) (st : St) :
    ((runChildren ts indent only st).1).trace = st.trace ++ childrenTrace ts only :=
  runChildren_trace_of ts (fun t _ => runNode_trace t) indent only st

theorem runChildren_counts_of (ts : List Node)
    (ih : ∀ t ∈ ts, ∀ indent only st,
      (runNode t indent only st).2.1 + (runNode t indent only st).2.2
        = runnableNodeCount t only) :
    ∀ indent only st,
      (runChildren ts indent only st).2.1 + (runChildren ts indent only st).2.2
        = runnableChildrenCount ts only := by
  induction ts with
  | nil => intro indent only st; simp [runChildren, runnableChildrenCount]
  | cons t rest ihl =>
    intro indent only st
    have iht := ih t (by simp)
    have ihrest := ihl fun x hx => ih x (by simp [hx])
    cases hc : t.isTest with
    | true => simp [runChildren, runnableChildrenCount, hc, ihrest]
    | false =>
      simp only [runChildren, runnableChildrenCount, hc, Bool.false_eq_true, if_false,
        ite_false]
      have h1 := iht indent only st
      have h2 := ihrest indent only (runNode t indent only st).1
      omega

theorem runNode_counts : ∀ (t : Node) (indent : Nat) (only : Bool) (st : St),
    (runNode t indent only st).2.1 + (runNode t indent only st).2.2
      = runnableNodeCount t only := by
  refine nodeInd _ ?_ ?_
  · intro n a o indent only st
    simp [runNode, runnableNodeCount]
  · intro n h ch o ih indent only st
    have hQ := runChildren_counts_of ch ih
    cases hR : hasRunnableTests ch only (suiteIsOnly ch only) with
    | false => simp [runNode, runnableNodeCount, hR]
    | true =>
      simp only [runNode, runnableNodeCount, hR, Bool.not_true, Bool.false_eq_true,
        if_false, ite_false, Bool.true_eq_false]
      have h1 := runCases_counts h indent
        (ch.filter fun t => t.isTest && (!(suiteIsOnly ch only) || t.only))
        (emit st (indentStr indent ++ n))
      have h2 := hQ (indent + 1) (suiteIsOnly ch only)
        (runCases h indent
          (ch.filter fun t => t.isTest && (!(suiteIsOnly ch only) || t.only))
          (emit st (indentStr indent ++ n))).1
      omega

theorem runChildren_counts (ts : List Node) (indent : Nat) (only : Bool) (st : St) :
    (runChildren ts indent only st).2.1 + (runChildren ts indent only st).2.2
      = runnableChildrenCount ts only :=
  runChildren_counts_of ts (fun t _ => runNode_counts t) indent only st

theorem runActsTrace_subset (as : List Act) (i : Nat) (h : i ∈ runActsTrace as) :
    i ∈ as.map (·.id) := by
  induction as with
  | nil => simp [runActsTrace] at h
  | cons a rest ih =>
    cases ho : a.outcome with
    | some e =>
      simp [runActsTrace, ho] at h
      simp [h]
    | none =>
      simp [runActsTrace, ho] at h
      rcases h with h | h
      · simp [h]
      · simp [ih h]

theorem caseTrace_subset (hooks : List Act) (a : Act) (i : Nat)
    (h : i ∈ caseTrace hooks a) : i ∈ hooks.map (·.id) ∨ i = a.id := by
  unfold caseTrace at h
  cases he : hooksErr hooks with
  | some e =>
    rw [he] at h
    exact Or.inl (runActsTrace_subset hooks i h)
  | none =>
    rw [he] at h
    rcases List.mem_append.mp h with h1 | h1
    · exact Or.inl (runActsTrace_subset hooks i h1)
    · simp at h1
      exact Or.inr h1

theorem nodeIds_of_mem (ts : List Node) (t : Node) (ht : t ∈ ts) (i : Nat)
    (hi : i ∈ nodeIds t) : i ∈ childIds ts := by
  induction ts with
  | nil => simp at ht
  | cons x rest ih =>
    rcases List.mem_cons.mp ht with h | h
    · subst h
      simp [childIds]
      exact Or.inl hi
    · simp [childIds]
      exact Or.inr (ih h)

theorem nodeIds_test (t : Node) (ht : t.isTest = true) : nodeIds t = [t.fn.id] := by
  cases t with
  | test n a o => simp [nodeIds, Node.fn]
  | suite n h ch o => simp [Node.isTest] at ht

theorem nodeTrace_subset_ids : ∀ (t : Node) (only : Bool) (i : Nat),
    i ∈ nodeTrace t only → i ∈ nodeIds t := by
  refine nodeInd _ ?_ ?_
  · intro n a o only i h
    simp [nodeTrace] at h
  · intro n h ch o ih only i hi
    cases hR : hasRunnableTests ch only (suiteIsOnly ch only) with
    | false => simp [nodeTrace, hR] at hi
    | true =>
      simp only [nodeTrace, hR, Bool.not_true, Bool.false_eq_true, if_false,
        ite_false] at hi
      rcases List.mem_append.mp hi with h1 | h1
      · rw [List.mem_flatMap] at h1
        obtain ⟨t, htf, hit⟩ := h1
        have htch : t ∈ ch := List.mem_of_mem_filter htf
        have hpred := (List.mem_filter.mp htf).2
        have htest : t.isTest = true := by
          cases hx : t.isTest
          · rw [hx] at hpred; simp at hpred
          · rfl
        rcases caseTrace_subset h t.fn i hit with hh | hh
        · simp only [nodeIds]
          exact List.mem_append.mpr (Or.inl hh)
        · have hmem : i ∈ nodeIds t := by
            rw [nodeIds_test t htest, hh]
            simp
          simp only [nodeIds]
          exact List.mem_append.mpr (Or.inr (nodeIds_of_mem ch t htch i hmem))
      · rw [childrenTrace_filter, List.mem_flatMap] at h1
        obtain ⟨t, htf, hit⟩ := h1
        have htch : t ∈ ch := List.mem_of_mem_filter htf
        have hmem := ih t htch (suiteIsOnly ch only) i hit
        simp only [nodeIds]
        exact List.mem_append.mpr (Or.inr (nodeIds_of_mem ch t htch i hmem))

theorem runActsTrace_ok (as : List Act) (h : ∀ a ∈ as, a.outcome = none) :
    runActsTrace as = as.map (·.id) := by
  induction as with
  | nil => simp [runActsTrace]
  | cons a rest ih =>
    have ha := h a (by simp)
    simp [runActsTrace, ha, ih fun x hx => h x (by simp [hx])]

theorem hooksErr_ok (as : List Act) (h : ∀ a ∈ as, a.outcome = none) :
    hooksErr as = none := by
  induction as with
  | nil => simp [hooksErr]
  | cons a rest ih =>
    have ha := h a (by simp)
    simp [hooksErr, ha, ih fun x hx => h x (by simp [hx])]

theorem caseTrace_ok (hooks : List Act) (h : ∀ a ∈ hooks, a.outcome = none) (a : Act) :
    caseTrace hooks a = hooks.map (·.id) ++ [a.id] := by
  simp [caseTrace, hooksErr_ok hooks h, runActsTrace_ok hooks h]

theorem hooksErr_append_fail (pre : List Act) (h : Act) (post : List Act) (e : Err)
    (hpre : ∀ x ∈ pre, x.outcome = none) (hh : h.outcome = some e) :
    hooksErr (pre ++ h :: post) = some e := by
  induction pre with
  | nil => simp [hooksErr, hh]
  | cons a rest ih =>
    have ha := hpre a (by simp)
    simp [hooksErr, ha, ih fun x hx => hpre x (by simp [hx])]

theorem runActsTrace_append_fail (pre : List Act) (h : Act) (post : List Act) (e : Err)
    (hpre : ∀ x ∈ pre, x.outcome = none) (hh : h.outcome = some e) :
    runActsTrace (pre ++ h :: post) = pre.map (·.id) ++ [h.id] := by
  induction pre with
  | nil => simp [runActsTrace, hh]
  | cons a rest ih =>
    have ha := hpre a (by simp)
    simp [runActsTrace, ha, ih fun x hx => hpre x (by simp [hx])]

theorem nestedOnly_eq (t : Node) : t.nestedOnly = t.tests.any (·.only) := by
  cases t <;> simp [Node.nestedOnly, Node.tests]

theorem hasOnlyIn_iff (ts : List Node) :
    hasOnlyIn ts = true ↔ ∃ t ∈ ts, t.only = true ∨ ∃ c ∈ t.tests, c.only = true := by
  simp [hasOnlyIn, nestedOnly_eq, List.any_eq_true]

theorem runTests_trace (tests : List Node) :
    ((runTests tests).1).trace
      = (tests.filter (·.isTest)).flatMap
          (fun t => if globalIsOnly tests && !t.only then [] else [t.fn.id])
        ++ childrenTrace tests (globalIsOnly tests) := by
  simp only [runTests]
  split
  · simp [printFailures_trace, runChildren_trace, runTopCases_trace, st0]
  · simp [runChildren_trace, runTopCases_trace, st0]

theorem flatMap_filter_only (ts : List Node) :
    ((ts.filter (·.isTest)).flatMap fun t => if !t.only then [] else [t.fn.id])
      = (ts.filter fun t => t.isTest && t.only).map fun t => t.fn.id := by
  induction ts with
  | nil => simp
  | cons t rest ih =>
    cases hi : t.isTest <;> cases ho : t.only <;>
      (simp [List.filter_cons, hi, ho]; try simpa using ih)

/-- Claim C4: for every registered forest, the reported totals satisfy
`totalPassed + totalFailed = number of runnable test cases` as computed by
the code's own filtering logic (`runnableTotal`): every runnable case
contributes exactly one to exactly one of the two counters, and skipped
cases contribute to neither. -/
theorem c4_totals_match_runnable (tests : List Node) :
    (runTests tests).2.1 + (runTests tests).2.2 = runnableTotal tests := by
  have h1 := runTopCases_counts (globalIsOnly tests) (tests.filter (·.isTest)) st0
  have h2 := runChildren_counts tests 1 (globalIsOnly tests)
    (runTopCases (globalIsOnly tests) (tests.filter (·.isTest)) st0).1
  simp only [runTests, runnableTotal]
  omega

/-- Claim C5: among siblings, all directly registered test cases execute
before any directly registered nested suite, with registration order
preserved inside the case batch (the order-preserving `filter` of the
children) and inside the suite batch, each nested suite then being run
recursively under the same rule; this holds both for every Group
(`runSuite`) and for the Root Forest (`runTests`). -/
theorem c5_cases_before_sibling_groups :
    (∀ (nm : String) (hooks : List Act) (ch : List Node) (o : Bool)
        (indent : Nat) (only : Bool) (st : St),
      ((runNode (.suite nm hooks ch o) indent only st).1).trace
        = st.trace ++
          (if hasRunnableTests ch only (suiteIsOnly ch only) then
            (ch.filter fun t => t.isTest && (!(suiteIsOnly ch only) || t.only)).flatMap
                (fun t => caseTrace hooks t.fn)
              ++ (ch.filter fun t => !t.isTest).flatMap
                  (fun t => nodeTrace t (suiteIsOnly ch only))
          else []))
    ∧ ∀ (tests : List Node),
        ((runTests tests).1).trace
          = (tests.filter (·.isTest)).flatMap
              (fun t => if globalIsOnly tests && !t.only then [] else [t.fn.id])
            ++ (tests.filter fun t => !t.isTest).flatMap
                (fun t => nodeTrace t (globalIsOnly tests)) := by
  constructor
  · intro nm hooks ch o indent only st
    rw [runNode_trace]
    cases hR : hasRunnableTests ch only (suiteIsOnly ch only) <;>
      simp [nodeTrace, hR, childrenTrace_filter]
  · intro tests
    rw [runTests_trace, childrenTrace_filter]

/-- Claim C9: the concrete forest `[Case("a", passes), Group("G",
[Case("b", fails "boom"), Case("c", passes)])]` produces, in order, the
line `✓ a`, the indented line `  G`, the further-indented line `    1) b`,
the line `    ✓ c`, the summary `2 passing` and `1 failing`, and a detail
block for failure 1 naming `b` and containing `boom`. -/
theorem c9_concrete_scenario :
    runTests [Node.test "a" ⟨1, none⟩ false,
      Node.suite "G" [] [Node.test "b" ⟨2, some ⟨some "boom"⟩⟩ false,
        Node.test "c" ⟨3, none⟩ false] false]
      = (⟨2, [⟨1, "b", "boom", 2, "AssertionError [ERR_ASSERTION]: boom"⟩],
          ["✓ a", "  G", "    1) b", "    ✓ c", "\n  2 passing", "  1 failing",
           "\n  1) b:\n", "      AssertionError [ERR_ASSERTION]: boom"],
          [1, 2, 3]⟩, 2, 1) := by
  rfl

/-- Claim C3 (code bug): the `hasRunnableTests` check of `runSuite`
inspects only one level of nesting, so (1) in the forest
`[Group P [Group G [Group H []]]]`, which contains no test case at all,
`P` still prints its name while returning `{0, 0}`; and (2) in the forest
`[Case.only a, Group P [Group G [Group H [Case.only c]]]]`, `P` is
suppressed entirely and the exclusive case `c` (id 2) never runs — only
`a` (id 1) does — although `P`'s subtree has runnable exclusive content. -/
theorem c3_shallow_suppression_bug :
    ((runTests [Node.suite "P" []
        [Node.suite "G" [] [Node.suite "H" [] [] false] false] false]).1).out
        = ["  P", "\n  0 passing"]
      ∧ runnableTotal [Node.suite "P" []
          [Node.suite "G" [] [Node.suite "H" [] [] false] false] false] = 0
      ∧ ((runTests [Node.test "a" ⟨1, none⟩ true,
          Node.suite "P" [] [Node.suite "G" [] [Node.suite "H" []
            [Node.test "c" ⟨2, none⟩ true] false] false] false]).1).trace = [1]
      ∧ ((runTests [Node.test "a" ⟨1, none⟩ true,
          Node.suite "P" [] [Node.suite "G" [] [Node.suite "H" []
            [Node.test "c" ⟨2, none⟩ true] false] false] false]).1).out
        = ["✓ a", "\n  1 passing"] := by
  refine ⟨rfl, rfl, rfl, rfl⟩

/-- Claim C1, counterexample: the forest `[x, Group P [Group G
[Case.only c]]]` carries an exclusive case at depth three
(`listAnyOnly` is true), yet the global exclusive flag computed by
`runTests` is false and the non-exclusive top-level case `x` (act id 1)
still runs, first in the trace — refuting the claim that exclusivity at
any depth activates the global flag and suppresses non-exclusive
top-level cases. -/
theorem c1_counterexample :
    listAnyOnly [Node.test "x" ⟨1, none⟩ false,
        Node.suite "P" [] [Node.suite "G" []
          [Node.test "c" ⟨2, none⟩ true] false] false] = true
      ∧ globalIsOnly [Node.test "x" ⟨1, none⟩ false,
          Node.suite "P" [] [Node.suite "G" []
            [Node.test "c" ⟨2, none⟩ true] false] false] = false
      ∧ ((runTests [Node.test "x" ⟨1, none⟩ false,
          Node.suite "P" [] [Node.suite "G" []
            [Node.test "c" ⟨2, none⟩ true] false] false]).1).trace = [1, 2] := by
  decide

/-- Claim C1 (amended): the global exclusive flag is set iff some
top-level node is marked exclusive or some direct child of a top-level
Group is marked exclusive (the detection reaches depth two only, not
arbitrary depth); when the flag is set, the top-level cases that execute
are exactly those marked exclusive, in registration order. -/
theorem c1_global_flag_two_levels (tests : List Node) :
    (globalIsOnly tests = true ↔
      ∃ t ∈ tests, t.only = true ∨ ∃ c ∈ t.tests, c.only = true)
    ∧ (globalIsOnly tests = true → ∀ st : St,
        ((runTopCases (globalIsOnly tests) (tests.filter (·.isTest)) st).1).trace
          = st.trace ++ ((tests.filter fun t => t.isTest && t.only).map fun t => t.fn.id)) := by
  constructor
  · exact hasOnlyIn_iff tests
  · intro h st
    rw [runTopCases_trace, h]
    simp only [Bool.true_and]
    rw [flatMap_filter_only]

/-- Claim C1, witness: in a forest with an exclusive and a non-exclusive
top-level case, the global flag is set and only the exclusive case's act
(id 1) appears in the top-level execution trace. -/
theorem c1_witness :
    globalIsOnly [Node.test "o" ⟨1, none⟩ true, Node.test "x" ⟨2, none⟩ false] = true
      ∧ ((runTopCases
            (globalIsOnly [Node.test "o" ⟨1, none⟩ true, Node.test "x" ⟨2, none⟩ false])
            ([Node.test "o" ⟨1, none⟩ true, Node.test "x" ⟨2, none⟩ false].filter (·.isTest))
            st0).1).trace = [1] := by
  have h := (c1_global_flag_two_levels
    [Node.test "o" ⟨1, none⟩ true, Node.test "x" ⟨2, none⟩ false]).2 (by decide) st0
  exact ⟨by decide, by simpa using h⟩

/-- Claim C2, counterexample: for the children list `[d, Group G
[Case.only c]]` traversed with inherited flag `false`, exclusive mode is
active (`suiteIsOnly` is true) although the suite is not marked
exclusive, nothing was inherited (the global flag of the enclosing forest
is false), and no direct child is marked exclusive — the activation comes
from the grandchild `c`; consequently the direct non-exclusive case `d`
(act id 1) is skipped and only `c` (act id 2) runs, whereas the claim's
(a)/(b)/(c) characterization says exclusive mode should be inactive and
`d` should run. -/
theorem c2_counterexample :
    suiteIsOnly [Node.test "d" ⟨1, none⟩ false,
        Node.suite "G" [] [Node.test "c" ⟨2, none⟩ true] false] false = true
      ∧ [Node.test "d" ⟨1, none⟩ false,
          Node.suite "G" [] [Node.test "c" ⟨2, none⟩ true] false].any (·.only) = false
      ∧ globalIsOnly [Node.suite "P" []
          [Node.test "d" ⟨1, none⟩ false,
           Node.suite "G" [] [Node.test "c" ⟨2, none⟩ true] false] false] = false
      ∧ ((runTests [Node.suite "P" []
          [Node.test "d" ⟨1, none⟩ false,
           Node.suite "G" [] [Node.test "c" ⟨2, none⟩ true] false] false]).1).trace
        = [2] := by
  decide

theorem runCases_out_failures (hooks : List Act) (indent : Nat) (cs : List Node) (st : St) :
    ((runCases hooks indent cs st).1).out = st.out ++ batchOut hooks indent cs st.failureIndex
      ∧ ((runCases hooks indent cs st).1).failures
        = st.failures ++ batchRecs hooks indent cs st.failureIndex := by
  induction cs generalizing st with
  | nil => simp [runCases, batchOut, batchRecs]
  | cons t rest ih =>
    cases hE : hooksErr hooks with
    | some e =>
      have hcf : caseFails hooks t = some e := by simp [caseFails, hE]
      constructor <;>
        simp [runCases, runActs_eq, hE, hcf, batchOut, batchRecs, recordFailure, emit,
          pushTrace, ih]
    | none =>
      have hcf : caseFails hooks t = t.fn.outcome := by simp [caseFails, hE]
      cases ho : t.fn.outcome <;>
        (constructor <;>
          simp [runCases, runActs_eq, hE, hcf, ho, batchOut, batchRecs, recordFailure,
            emit, pushTrace, ih])

theorem batchRecs_names (hooks : List Act) (indent : Nat) (cs : List Node) :
    ∀ (k : Nat) (f : FailureRecord),
      f ∈ batchRecs hooks indent cs k → ∃ t ∈ cs, f.name = t.name := by
  induction cs with
  | nil =>
    intro k f hf
    simp [batchRecs] at hf
  | cons t rest ih =>
    intro k f hf
    cases hcf : caseFails hooks t with
    | none =>
      simp only [batchRecs, hcf] at hf
      obtain ⟨x, hx, hn⟩ := ih k f hf
      exact ⟨x, by simp [hx], hn⟩
    | some e =>
      simp only [batchRecs, hcf] at hf
      rcases List.mem_cons.mp hf with h1 | h1
      · exact ⟨t, by simp, by simp [h1, mkFailure]⟩
      · obtain ⟨x, hx, hn⟩ := ih (k + 1) f h1
        exact ⟨x, by simp [hx], hn⟩

/-- Claim C2 (amended): exclusive mode is active for a traversed Group
iff the invocation inherited it, or some direct child is marked
exclusive, or some grandchild reached through a direct child Group is
marked exclusive (the Group's own flag is not consulted directly — a
marked Group activates the mode through its parent's detection, arriving
as the inherited flag); and when exclusive mode is active, the Case
children that run are exactly those with `exclusive = true`, the others
being neither executed (the invocation trace covers exactly the exclusive
cases), nor counted (the pass/fail counters sum to the number of
exclusive cases), nor reported (the emitted lines and the pushed failure
records are exactly those of the exclusive cases, every record bearing an
exclusive case's name). -/
theorem c2_exclusive_activation (ch : List Node) (only : Bool) :
    (suiteIsOnly ch only = true ↔
      (only = true ∨ ∃ t ∈ ch, t.only = true ∨ ∃ c ∈ t.tests, c.only = true))
    ∧ (suiteIsOnly ch only = true → ∀ (hooks : List Act) (indent : Nat) (st : St),
        ((runCases hooks indent
            (ch.filter fun t => t.isTest && (!(suiteIsOnly ch only) || t.only)) st).1).trace
          = st.trace ++ ((ch.filter fun t => t.isTest && t.only).flatMap
              fun t => caseTrace hooks t.fn)
        ∧ (runCases hooks indent
              (ch.filter fun t => t.isTest && (!(suiteIsOnly ch only) || t.only)) st).2.1
            + (runCases hooks indent
                (ch.filter fun t => t.isTest && (!(suiteIsOnly ch only) || t.only)) st).2.2
          = (ch.filter fun t => t.isTest && t.only).length
        ∧ ((runCases hooks indent
            (ch.filter fun t => t.isTest && (!(suiteIsOnly ch only) || t.only)) st).1).out
          = st.out ++ batchOut hooks indent
              (ch.filter fun t => t.isTest && t.only) st.failureIndex
        ∧ ((runCases hooks indent
            (ch.filter fun t => t.isTest && (!(suiteIsOnly ch only) || t.only)) st).1).failures
          = st.failures ++ batchRecs hooks indent
              (ch.filter fun t => t.isTest && t.only) st.failureIndex
        ∧ ∀ f ∈ batchRecs hooks indent
              (ch.filter fun t => t.isTest && t.only) st.failureIndex,
            ∃ t ∈ ch.filter (fun t => t.isTest && t.only), f.name = t.name) := by
  constructor
  · rw [suiteIsOnly, Bool.or_eq_true, hasOnlyIn_iff]
    exact Or.comm
  · intro h hooks indent st
    simp only [h, Bool.not_true, Bool.false_or]
    exact ⟨runCases_trace hooks indent _ st,
      runCases_counts hooks indent _ st,
      (runCases_out_failures hooks indent _ st).1,
      (runCases_out_failures hooks indent _ st).2,
      fun f hf => batchRecs_names hooks indent _ st.failureIndex f hf⟩

/-- Claim C2, witness: for the children list `[Case.only k, Group G
[Case.only c]]` with inherited flag `false`, exclusive mode is active and
the case batch runs exactly the exclusive direct case `k` (act id 5),
counts exactly it (one case), emits exactly its `✓ k` line, and pushes no
failure record — the non-exclusive cases are neither executed, nor
counted, nor reported. -/
theorem c2_witness :
    ((runCases [] 1
        ([Node.test "k" ⟨5, none⟩ true,
          Node.suite "G" [] [Node.test "c" ⟨2, none⟩ true] false].filter
          fun t => t.isTest &&
            (!(suiteIsOnly [Node.test "k" ⟨5, none⟩ true,
                Node.suite "G" [] [Node.test "c" ⟨2, none⟩ true] false] false) || t.only))
        st0).1).trace = [5]
      ∧ (runCases [] 1
          ([Node.test "k" ⟨5, none⟩ true,
            Node.suite "G" [] [Node.test "c" ⟨2, none⟩ true] false].filter
            fun t => t.isTest &&
              (!(suiteIsOnly [Node.test "k" ⟨5, none⟩ true,
                  Node.suite "G" [] [Node.test "c" ⟨2, none⟩ true] false] false) || t.only))
          st0).2.1
        + (runCases [] 1
            ([Node.test "k" ⟨5, none⟩ true,
              Node.suite "G" [] [Node.test "c" ⟨2, none⟩ true] false].filter
              fun t => t.isTest &&
                (!(suiteIsOnly [Node.test "k" ⟨5, none⟩ true,
                    Node.suite "G" [] [Node.test "c" ⟨2, none⟩ true] false] false) || t.only))
            st0).2.2 = 1
      ∧ ((runCases [] 1
          ([Node.test "k" ⟨5, none⟩ true,
            Node.suite "G" [] [Node.test "c" ⟨2, none⟩ true] false].filter
            fun t => t.isTest &&
              (!(suiteIsOnly [Node.test "k" ⟨5, none⟩ true,
                  Node.suite "G" [] [Node.test "c" ⟨2, none⟩ true] false] false) || t.only))
          st0).1).out = ["    ✓ k"]
      ∧ ((runCases [] 1
          ([Node.test "k" ⟨5, none⟩ true,
            Node.suite "G" [] [Node.test "c" ⟨2, none⟩ true] false].filter
            fun t => t.isTest &&
              (!(suiteIsOnly [Node.test "k" ⟨5, none⟩ true,
                  Node.suite "G" [] [Node.test "c" ⟨2, none⟩ true] false] false) || t.only))
          st0).1).failures = [] := by
  have h := (c2_exclusive_activation
    [Node.test "k" ⟨5, none⟩ true,
     Node.suite "G" [] [Node.test "c" ⟨2, none⟩ true] false] false).2
    (by decide) [] 1 st0
  refine ⟨by simpa using h.1, by simpa using h.2.1, ?_, ?_⟩
  · have h3 := h.2.2.1
    simpa [batchOut, caseFails, hooksErr, st0, indentStr, Node.name, Node.fn] using h3
  · have h4 := h.2.2.2.1
    simpa [batchRecs, caseFails, hooksErr, st0] using h4

/-- Claim C6: if a setup hook raises while guarding a test case, no later
hook runs and the case's action is never invoked (the appended trace is
exactly the succeeding prefix of hooks followed by the failing hook), the
case is counted as failed (result `(0, 1)`), and exactly one failure
record is produced, attributed to the case's name and carrying the hook's
failure message. -/
theorem c6_hook_failure_short_circuits
    (pre : List Act) (h : Act) (post : List Act) (e : Err)
    (nm : String) (a : Act) (onl : Bool) (indent : Nat) (st : St)
    (hpre : ∀ x ∈ pre, x.outcome = none) (hh : h.outcome = some e) :
    ((runCases (pre ++ h :: post) indent [Node.test nm a onl] st).1).trace
        = st.trace ++ pre.map (·.id) ++ [h.id]
      ∧ ((runCases (pre ++ h :: post) indent [Node.test nm a onl] st).1).failures
        = st.failures ++ [⟨st.failureIndex, nm, jsOr e.message "undefined", indent + 1,
            "AssertionError [ERR_ASSERTION]: " ++ jsOr e.message "No message"⟩]
      ∧ (runCases (pre ++ h :: post) indent [Node.test nm a onl] st).2 = (0, 1) := by
  have hE := hooksErr_append_fail pre h post e hpre hh
  have hT := runActsTrace_append_fail pre h post e hpre hh
  refine ⟨?_, ?_, ?_⟩
  · rw [runCases_trace]
    simp [caseTrace, hE, hT]
  · simp [runCases, runActs_eq, hE, recordFailure, emit, mkFailure, Node.name]
  · simp [runCases, runActs_eq, hE]

/-- Claim C6, witness: with hooks `[h1 ok, h2 failing "hook failed",
h3 ok]` guarding case `c1` (action id 4), the trace is `[1, 2]` (h3 and
the action never run), one failure record attributed to `c1` with message
`hook failed` is produced, and the result is one failure. -/
theorem c6_witness :
    ((runCases [⟨1, none⟩, ⟨2, some ⟨some "hook failed"⟩⟩, ⟨3, none⟩] 0
        [Node.test "c1" ⟨4, none⟩ false] st0).1).trace = [1, 2]
      ∧ ((runCases [⟨1, none⟩, ⟨2, some ⟨some "hook failed"⟩⟩, ⟨3, none⟩] 0
          [Node.test "c1" ⟨4, none⟩ false] st0).1).failures
        = [⟨1, "c1", "hook failed", 1, "AssertionError [ERR_ASSERTION]: hook failed"⟩]
      ∧ (runCases [⟨1, none⟩, ⟨2, some ⟨some "hook failed"⟩⟩, ⟨3, none⟩] 0
          [Node.test "c1" ⟨4, none⟩ false] st0).2 = (0, 1) := by
  have h := c6_hook_failure_short_circuits [⟨1, none⟩] ⟨2, some ⟨some "hook failed"⟩⟩
    [⟨3, none⟩] ⟨some "hook failed"⟩ "c1" ⟨4, none⟩ false 0 st0 (by decide) rfl
  refine ⟨by simpa using h.1, by simpa [st0] using h.2.1, by simpa using h.2.2⟩

/-- Claim C7: when all of a Group's setup hooks succeed, the case batch
runs, for each runnable direct case in order, all hooks in registration
order followed by that case's action (trace `hooks.map id ++ [case id]`
per case, once per case); and every act invoked inside a nested Group's
traversal is an act belonging to that Group's own subtree, so a Group's
hooks are never run for cases of nested Groups. -/
theorem c7_hooks_once_per_direct_case :
    (∀ (hooks : List Act), (∀ a ∈ hooks, a.outcome = none) →
      ∀ (cs : List Node) (indent : Nat) (st : St),
        ((runCases hooks indent cs st).1).trace
          = st.trace ++ cs.flatMap fun t => hooks.map (·.id) ++ [t.fn.id])
    ∧ ∀ (t : Node) (only : Bool) (i : Nat), i ∈ nodeTrace t only → i ∈ nodeIds t := by
  constructor
  · intro hooks hok cs indent st
    rw [runCases_trace]
    simp [caseTrace_ok hooks hok]
  · exact nodeTrace_subset_ids

/-- Claim C7, witness: hooks `[h1, h2]` (ids 1, 2) and case `c1`
(action id 3) produce the invocation order `[1, 2, 3]`; and the hook id 4
observed in the trace of a suite belongs to that suite's own act ids. -/
theorem c7_witness :
    ((runCases [⟨1, none⟩, ⟨2, none⟩] 0 [Node.test "c1" ⟨3, none⟩ false] st0).1).trace
        = [1, 2, 3]
      ∧ 4 ∈ nodeIds (Node.suite "S" [⟨4, none⟩] [Node.test "t" ⟨5, none⟩ true] false) := by
  have h1 := c7_hooks_once_per_direct_case.1 [⟨1, none⟩, ⟨2, none⟩] (by decide)
    [Node.test "c1" ⟨3, none⟩ false] 0 st0
  have h2 := c7_hooks_once_per_direct_case.2
    (Node.suite "S" [⟨4, none⟩] [Node.test "t" ⟨5, none⟩ true] false) true 4 (by decide)
  exact ⟨by simpa using h1, h2⟩

/-- Claim C8, counterexample: for a top-level case failing with a
message-less error, the failure record's `message` field is the
placeholder `undefined`, but the formatted detail string shown in the
trailing failure block is `AssertionError [ERR_ASSERTION]: No message` —
the detail string does not use the `undefined` placeholder, refuting the
claim's "including in the formatted detail string" part. -/
theorem c8_counterexample :
    ((runTests [Node.test "f" ⟨1, some ⟨none⟩⟩ false]).1).failures
        = [⟨1, "f", "undefined", 0, "AssertionError [ERR_ASSERTION]: No message"⟩]
      ∧ ((runTests [Node.test "f" ⟨1, some ⟨none⟩⟩ false]).1).out
        = ["  1) f", "\n  0 passing", "  1 failing", "\n  1) f:\n",
           "      AssertionError [ERR_ASSERTION]: No message"]
      ∧ ("AssertionError [ERR_ASSERTION]: No message"
          ≠ "AssertionError [ERR_ASSERTION]: undefined") := by
  refine ⟨rfl, rfl, by decide⟩

/-- Claim C8 (amended): for every failing case, the failure record's
`message` is taken from the raised failure's message field, with the
fixed placeholder `undefined` when the field is absent (or empty, both
being falsy); the formatted detail string of the record — and hence of
the trailing failure block — instead uses the separate fallback
`No message`, not `undefined`. -/
theorem c8_record_message_fallbacks (nm : String) (m : Option String) :
    ((runTests [Node.test nm ⟨1, some ⟨m⟩⟩ false]).1).failures
        = [⟨1, nm, jsOr m "undefined", 0,
            "AssertionError [ERR_ASSERTION]: " ++ jsOr m "No message"⟩]
      ∧ ((runTests [Node.test nm ⟨1, some ⟨m⟩⟩ false]).1).out
        = ["  1) " ++ nm, "\n  0 passing", "  1 failing",
           "\n  1) " ++ nm ++ ":\n",
           "      " ++ ("AssertionError [ERR_ASSERTION]: " ++ jsOr m "No message")]
      ∧ jsOr none "undefined" = "undefined" := by
  refine ⟨rfl, ?_, rfl⟩
  simp [runTests, runTopCases, printFailures, emit, pushTrace, recordFailure, mkFailure,
    runChildren, globalIsOnly, hasOnlyIn, st0, Node.isTest, Node.only, Node.nestedOnly,
    Node.fn, Node.name, indentStr]
  refine ⟨by rfl, by rfl, by rfl, by rfl⟩

/-- Claim C10: whatever error a test action or a setup hook raises, the
failure record's formatted detail string is exactly `AssertionError
[ERR_ASSERTION]: ` followed by the failure's message, with fallback text
`No message` when the message field is absent — in both the nested
(`runSuite`) failure paths (action failure and hook failure) — and this
fallback differs from the record's message-field fallback `undefined`. -/
theorem c10_details_always_assertion_error :
    (∀ (nm : String) (e : Err) (aid : Nat) (onl : Bool) (indent : Nat) (st : St),
      ((runCases [] indent [Node.test nm ⟨aid, some e⟩ onl] st).1).failures
        = st.failures ++ [⟨st.failureIndex, nm, jsOr e.message "undefined", indent + 1,
            "AssertionError [ERR_ASSERTION]: " ++ jsOr e.message "No message"⟩])
    ∧ (∀ (nm : String) (e : Err) (hid : Nat) (a : Act) (onl : Bool) (indent : Nat) (st : St),
      ((runCases [⟨hid, some e⟩] indent [Node.test nm a onl] st).1).failures
        = st.failures ++ [⟨st.failureIndex, nm, jsOr e.message "undefined", indent + 1,
            "AssertionError [ERR_ASSERTION]: " ++ jsOr e.message "No message"⟩])
    ∧ jsOr none "No message" = "No message"
    ∧ ("No message" : String) ≠ "undefined" := by
  refine ⟨?_, ?_, rfl, by decide⟩
  · intro nm e aid onl indent st
    rfl
  · intro nm e hid a onl indent st
    rfl
